import Mathlib

/-!
Verification development for the lead-sniper data-collection pipeline.

The Python sources (src/utils.py, src/parser.py, src/main.py,
src/cat_detector.py, src/config.py) are shallowly embedded below.
Strings are modelled as `List Char`; Python `re` digit classes (`\d`,
`str.isdigit`) are modelled as the ASCII digits `'0'..'9'`, `\s` as the
ASCII whitespace characters, and `str.lower` as ASCII plus Russian
(`А..Я`, `Ё`) lowercasing, which covers every character occurring in the
repository's keyword lists and marker strings.  Python `dict` values are
modelled by `Val` (string / int / None) and dicts by association lists
in insertion order; `dict` update (as in `\x7b**company, k: v\x7d`) replaces
in place or appends, exactly as CPython does.  Machine floats appearing
in `Utils.parse_revenue` (`float(...)`, `int(value * multiplier)`) are
modelled by exact rationals; all revenue values exercised here are far
below 2^53, where the two semantics agree.
-/

namespace LeadSniper

/-- ASCII decimal digit, the model of `\d` and `str.isdigit`. -/
def isDig (c : Char) : Bool := 48 ≤ c.toNat && c.toNat ≤ 57

/-- ASCII whitespace, the model of `\s` and `str.strip`. -/
def isSpaceCh (c : Char) : Bool :=
  c = ' ' || c = '\t' || c = '\n' || c = '\r' || c = '\x0b' || c = '\x0c'

/-- Model of Python `str.lower` on one character: ASCII `A..Z` and
Russian `А..Я`, `Ё` are lowered, everything else is unchanged. -/
def ruLower (c : Char) : Char :=
  let n := c.toNat
  if 1040 ≤ n ∧ n ≤ 1071 then Char.ofNat (n + 32)
  else if n = 1025 then Char.ofNat 1105
  else if 65 ≤ n ∧ n ≤ 90 then Char.ofNat (n + 32)
  else c

/-- `listStartsWith pat s` = `s` begins with `pat` (character-exact). -/
def listStartsWith : List Char → List Char → Bool
  | [], _ => true
  | _ :: _, [] => false
  | p :: ps, c :: cs => p == c && listStartsWith ps cs

/-- Model of Python substring containment `needle in haystack`. -/
def containsSub (needle haystack : List Char) : Bool :=
  haystack.tails.any (fun t => listStartsWith needle t)

/-- Numeric value of a most-significant-first ASCII digit string. -/
def digitsVal (l : List Char) : Nat :=
  l.foldl (fun a c => 10 * a + (c.toNat - 48)) 0

/-- Model of Python `str(n)` for a natural number: its decimal digits. -/
def natRepr (n : Nat) : List Char :=
  if n = 0 then ['0'] else ((Nat.digits 10 n).map Nat.digitChar).reverse

/-- Number of leading ASCII digits of a string. -/
def leadDigits (s : List Char) : Nat := (s.takeWhile isDig).length

/-- `takeDigits n s`: consume exactly `n` leading digits, returning them
and the rest; the model of matching `\d\x7bn\x7d` at the current position. -/
def takeDigits : Nat → List Char → Option (List Char × List Char)
  | 0, s => some ([], s)
  | _ + 1, [] => none
  | n + 1, c :: s =>
    if isDig c then
      match takeDigits n s with
      | some (d, r) => some (c :: d, r)
      | none => none
    else none

/-- The lookahead `(?=\D|$)`: next character absent or not a digit. -/
def lookNonDigit : List Char → Bool
  | [] => true
  | c :: _ => !isDig c

/-- Matching `(\d\x7b10\x7d|\d\x7b12\x7d)(?=\D|$)` at the current position, with
Python's alternation order (`\d\x7b10\x7d` is tried before `\d\x7b12\x7d`).
This is the second pattern of `Utils.extract_inn`. -/
def matchP2At (s : List Char) : Option (List Char) :=
  match takeDigits 10 s with
  | none => none
  | some (d10, r10) =>
    if lookNonDigit r10 then some d10
    else
      match takeDigits 12 s with
      | none => none
      | some (d12, r12) => if lookNonDigit r12 then some d12 else none

/-- `re.search` for the second pattern: leftmost position at which
`matchP2At` succeeds. -/
def searchP2 : List Char → Option (List Char)
  | [] => none
  | c :: t =>
    match matchP2At (c :: t) with
    | some d => some d
    | none => searchP2 t

/-- Case-insensitive character comparison (`re.IGNORECASE`). -/
def charLowEq (a b : Char) : Bool := ruLower a == ruLower b

/-- Match a literal pattern case-insensitively at the current position,
returning the rest of the input. -/
def matchChars : List Char → List Char → Option (List Char)
  | [], s => some s
  | _ :: _, [] => none
  | p :: ps, c :: s => if charLowEq p c then matchChars ps s else none

/-- Matching `LABEL\s*[:=]?\s*(\d\x7b10\x7d|\d\x7b12\x7d)` at the current position
(patterns 1 and 3 of `Utils.extract_inn`).  The character classes
`\s`, `[:=]`, `\d` are pairwise disjoint, so the greedy left-to-right
parse below is equivalent to the regex with backtracking.  The group
tries `\d\x7b10\x7d` first and nothing follows it, so a successful match
always captures exactly the first 10 digits.
`afterColon` consumes the optional `[:=]`. -/
def afterColon : List Char → List Char
  | c :: t => if c = ':' ∨ c = '=' then t else c :: t
  | [] => []

/-- See `afterColon`: the position-wise matcher for the labelled
patterns. -/
def matchLabelAt (label : List Char) (s : List Char) : Option (List Char) :=
  match matchChars label s with
  | none => none
  | some r1 =>
    match takeDigits 10 ((afterColon (r1.dropWhile isSpaceCh)).dropWhile isSpaceCh) with
    | some (d, _) => some d
    | none => none

/-- `re.search` for a labelled pattern: leftmost matching position. -/
def searchLabel (label : List Char) : List Char → Option (List Char)
  | [] => none
  | c :: t =>
    match matchLabelAt label (c :: t) with
    | some d => some d
    | none => searchLabel label t

/-- `Utils.extract_inn`: empty input gives `None`; otherwise the three
patterns are tried in source order. -/
def extract_inn (s : List Char) : Option (List Char) :=
  if s.isEmpty then none
  else
    match searchLabel "ИНН".toList s with
    | some d => some d
    | none =>
      match searchP2 s with
      | some d => some d
      | none => searchLabel "inn".toList s

/-- `Utils.validate_inn`: non-empty, all digits, length 10 or 12. -/
def validate_inn (inn : List Char) : Bool :=
  !inn.isEmpty && inn.all isDig && (inn.length == 10 || inn.length == 12)

/-- The composed tax-ID acceptor of claim C1: extraction followed by
validation. -/
def acceptsInn (s : List Char) : Bool :=
  match extract_inn s with
  | some v => validate_inn v
  | none => false

/-- Lengths of the maximal runs of consecutive digits of a string. -/
def digitRunsAux : List Char → Nat → List Nat
  | [], 0 => []
  | [], n + 1 => [n + 1]
  | c :: t, n =>
    if isDig c then digitRunsAux t (n + 1)
    else if n = 0 then digitRunsAux t 0 else n :: digitRunsAux t 0

/-- Lengths of the maximal digit runs of a string, left to right. -/
def digitRuns (s : List Char) : List Nat := digitRunsAux s 0

/-- `s` contains a run of at least 10 consecutive decimal digits. -/
def hasLongDigitRun (s : List Char) : Bool :=
  s.tails.any (fun t => decide (10 ≤ leadDigits t))

/-! ### `Utils.parse_revenue` (src/utils.py) -/

/-- Model of Python `float(clean)` for the cleaned revenue string, which
by construction contains only ASCII digits and dots: at most one dot and
at least one digit, otherwise `ValueError` (`none`).  The exact value
`ip + fp / 10 ^ k` is represented by the digit values `(ip, fp)` and the
fraction length `k`; see `truncMul_eq_floor` for the statement that the
integer arithmetic below computes exactly
`int(float(clean) * multiplier)` (all revenue values here are far below
2^53, where binary floating point is exact on these computations). -/
def parseDecimalParts (s : List Char) : Option (Nat × Nat × Nat) :=
  if s.all (fun c => isDig c || c = '.') then
    match (s.filter (fun c => c = '.')).length with
    | 0 => if s.isEmpty then none else some (digitsVal s, 0, 0)
    | 1 =>
      let ip := s.takeWhile (fun c => c ≠ '.')
      let fp := (s.dropWhile (fun c => c ≠ '.')).drop 1
      if ip.isEmpty && fp.isEmpty then none
      else some (digitsVal ip, digitsVal fp, fp.length)
    | _ + 2 => none
  else none

/-- `int(value * multiplier)` for `value = ip + fp / 10 ^ k ≥ 0`:
truncation toward zero is the floor, computed by exact integer
arithmetic. -/
def truncMul (ip fp k m : Nat) : Nat := (ip * 10 ^ k + fp) * m / 10 ^ k

/-- The cleaned revenue string:
`re.sub(r'[^\d.,]', '', ...).replace(',', '.')`. -/
def cleanRevenue (t : List Char) : List Char :=
  (t.filter (fun c => isDig c || c = '.' || c = ',')).map
    (fun c => if c = ',' then '.' else c)

/-- The unit multiplier chosen from the lowercased original text. -/
def revenueMultiplier (t : List Char) : Nat :=
  let lower := t.map ruLower
  if containsSub "млн".toList lower || containsSub "million".toList lower then 1000000
  else if containsSub "млрд".toList lower || containsSub "billion".toList lower then 1000000000
  else if containsSub "тыс".toList lower || containsSub "thousand".toList lower then 1000
  else 1

/-- `Utils.parse_revenue`: keep only digits, dots and commas, turn commas
into dots (`cleanRevenue`), pick a unit multiplier from the lowercased
original text (`revenueMultiplier`), and truncate `value * multiplier`
to an integer (`truncMul`).  Returns `none` for empty input, no
remaining digits/dots, or an unparsable number. -/
def parse_revenue (t : List Char) : Option Int :=
  if t.isEmpty then none
  else if (cleanRevenue t).isEmpty then none
  else
    match parseDecimalParts (cleanRevenue t) with
    | some (ip, fp, k) => some (truncMul ip fp k (revenueMultiplier t) : Nat)
    | none => none

/-! ### Other field normalizers of src/utils.py -/

/-- Replace every whitespace run by a single space
(`re.sub(r'\s+', ' ', ...)`). -/
def collapseAux : Bool → List Char → List Char
  | _, [] => []
  | prevSpace, c :: t =>
    if isSpaceCh c then
      if prevSpace then collapseAux true t else ' ' :: collapseAux true t
    else c :: collapseAux false t

/-- See `collapseAux` (`prevSpace` remembers whether the previous
character belonged to the current whitespace run). -/
def collapseRuns (s : List Char) : List Char := collapseAux false s

/-- Strip ASCII whitespace from both ends (`str.strip`). -/
def pyStrip (s : List Char) : List Char :=
  ((s.dropWhile isSpaceCh).reverse.dropWhile isSpaceCh).reverse

/-- `Utils.normalize_text` on a string argument. -/
def normalize_text (s : List Char) : List Char :=
  if s.isEmpty then [] else collapseRuns (pyStrip s)

/-- `Utils.parse_employees` on a string: find the first digit, take the
following run of digits and whitespace (the regex `(\d[\d\s]*)`), delete
the spaces (`.replace(' ', '')`), and read the number; if a non-space
whitespace character survives, `int` raises and the result is `none`. -/
def parse_employees (s : List Char) : Option Int :=
  if s.isEmpty then none
  else
    match s.dropWhile (fun c => !isDig c) with
    | [] => none
    | c :: t =>
      let run := c :: t.takeWhile (fun c => isDig c || isSpaceCh c)
      let numStr := run.filter (fun c => c ≠ ' ')
      if numStr.all isDig && !numStr.isEmpty then some (digitsVal numStr : Int)
      else none

/-- Greedy match of `\d\x7b2\x7d\.?\d\x7b0,2\x7d\.?\d\x7b0,2\x7d` at the current
position (every part after `\d\x7b2\x7d` is optional and nothing follows the
pattern, so greedy matching needs no backtracking). -/
def okvedMatchAt (s : List Char) : Option (List Char) :=
  match takeDigits 2 s with
  | none => none
  | some (d2, r) =>
    let p1 := r.take 1 |>.filter (fun c => c = '.')
    let r1 := r.drop p1.length
    let d3 := (r1.takeWhile isDig).take 2
    let r2 := r1.drop d3.length
    let p2 := r2.take 1 |>.filter (fun c => c = '.')
    let r3 := r2.drop p2.length
    let d4 := (r3.takeWhile isDig).take 2
    some (d2 ++ p1 ++ d3 ++ p2 ++ d4)

/-- Leftmost match of the OKVED code pattern. -/
def okvedSearch : List Char → Option (List Char)
  | [] => none
  | c :: t =>
    match okvedMatchAt (c :: t) with
    | some m => some m
    | none => okvedSearch t

/-- `Utils.normalize_okved` on a string: extract the code shape and drop
its dots, otherwise return the stripped input. -/
def normalize_okved (s : List Char) : List Char :=
  if s.isEmpty then []
  else
    match okvedSearch s with
    | some code => code.filter (fun c => c ≠ '.')
    | none => pyStrip s

/-! ### Python dictionaries -/

/-- Python values appearing in company records. -/
inductive Val where
  | vstr : List Char → Val
  | vint : Int → Val
  | vnull : Val
deriving DecidableEq

/-- A Python dict in insertion order. -/
abbrev Dict := List (List Char × Val)

/-- First-match lookup (`d[k]` / `d.get(k)`). -/
def dictGet (d : Dict) (k : List Char) : Option Val :=
  match d with
  | [] => none
  | (k', v) :: rest => if k' = k then some v else dictGet rest k

/-- CPython dict update: replace in place when the key exists, append
otherwise.  `\x7b**d, k: v\x7d` updates left to right with this operation. -/
def dictSet (d : Dict) (k : List Char) (v : Val) : Dict :=
  match dictGet d k with
  | some _ => d.map (fun kv => if kv.1 = k then (k, v) else kv)
  | none => d ++ [(k, v)]

/-- Iterated dict update, left to right. -/
def dictSets (d : Dict) : List (List Char × Val) → Dict
  | [] => d
  | kv :: rest => dictSets (dictSet d kv.1 kv.2) rest

/-- Python truthiness of a value. -/
def valTruthy : Val → Bool
  | .vstr s => !s.isEmpty
  | .vint n => n != 0
  | .vnull => false

/-- Model of Python `str(n)` for an integer. -/
def intRepr (n : Int) : List Char :=
  if n < 0 then '-' :: natRepr n.natAbs else natRepr n.toNat

/-- Model of Python `str(v)`. -/
def pyStr : Val → List Char
  | .vstr s => s
  | .vint n => intRepr n
  | .vnull => "None".toList

/-! ### src/parser.py -/

/-- `CompanyParser.parse_revenue_field`: `None` stays `None`, ints pass
through, strings go through `Utils.parse_revenue`. -/
def parse_revenue_field : Val → Option Int
  | .vnull => none
  | .vint n => some n
  | .vstr s => parse_revenue s

/-- `CompanyParser.parse_employees_field`. -/
def parse_employees_field : Val → Option Int
  | .vnull => none
  | .vint n => some n
  | .vstr s => parse_employees s

/-- `Utils.normalize_text` on an arbitrary value: falsy values give the
empty string, a non-falsy non-string raises (`none`, caught by the
caller's `except`). -/
def normalize_text_v : Val → Option (List Char)
  | .vstr s => some (normalize_text s)
  | .vnull => some []
  | .vint n => if n = 0 then some [] else none

/-- `Utils.normalize_okved` on an arbitrary value, same conventions. -/
def normalize_okved_v : Val → Option (List Char)
  | .vstr s => some (normalize_okved s)
  | .vnull => some []
  | .vint n => if n = 0 then some [] else none

/-- The `inn` normalization prefix of `parse_company_data`: take the
raw value, run `Utils.extract_inn` on a truthy string (falling back to
the raw string when extraction fails), then `str(...).strip()` on a
truthy value, else the empty string. -/
def rawInnStr (raw : Dict) : List Char :=
  let innV0 := (dictGet raw "inn".toList).getD (.vstr [])
  let innV1 := match innV0 with
    | .vstr s => if !s.isEmpty then Val.vstr ((extract_inn s).getD s) else innV0
    | v => v
  if valTruthy innV1 then pyStrip (pyStr innV1) else []

/-- The `site` normalization of `parse_company_data`: strip a string
site and prepend `https://` when no scheme is present; non-string
values pass through untouched. -/
def parsedSite (raw : Dict) : Val :=
  match (dictGet raw "site".toList).getD (.vstr []) with
  | .vstr s =>
    let s1 := pyStrip s
    if !s1.isEmpty &&
        !(listStartsWith "http://".toList s1 || listStartsWith "https://".toList s1) then
      .vstr ("https://".toList ++ s1)
    else .vstr s1
  | v => v

/-- The `employees` field of `parse_company_data` (`None` when parsing
fails). -/
def parsedEmployees (raw : Dict) : Val :=
  match parse_employees_field ((dictGet raw "employees".toList).getD .vnull) with
  | some n => .vint n
  | none => .vnull

/-- `CompanyParser.parse_company_data`.  `minRevenue` is
`config.search_params.min_revenue`, `now` the `datetime.now().isoformat()`
timestamp.  Rejection (and any exception caught by the function's
`except`) returns the empty dict, as in the source. -/
def parse_company_data (minRevenue : Int) (now : List Char) (raw : Dict) : Dict :=
  if !validate_inn (rawInnStr raw) then []
  else
    match normalize_text_v ((dictGet raw "name".toList).getD (.vstr [])) with
    | none => []
    | some name =>
      if name.isEmpty then []
      else
        match parse_revenue_field ((dictGet raw "revenue".toList).getD .vnull) with
        | none => []
        | some revenue =>
          if revenue < minRevenue then []
          else
            match normalize_okved_v ((dictGet raw "okved_main".toList).getD (.vstr [])) with
            | none => []
            | some okved =>
              [("inn".toList, .vstr (rawInnStr raw)),
               ("name".toList, .vstr name),
               ("revenue".toList, .vint revenue),
               ("site".toList, parsedSite raw),
               ("okved_main".toList, .vstr okved),
               ("employees".toList, parsedEmployees raw),
               ("source".toList, (dictGet raw "source".toList).getD (.vstr "unknown".toList)),
               ("detail_url".toList, (dictGet raw "detail_url".toList).getD (.vstr [])),
               ("parsed_at".toList, .vstr now)]

/-- The raw `inn` value of a record (`company.get('inn', '')`). -/
def innOf (c : Dict) : Val := (dictGet c "inn".toList).getD (.vstr [])

/-- Loop of `CompanyParser.deduplicate_companies`, with the `seen_inns`
set modelled as the list of values added so far. -/
def dedupGo : List Dict → List Val → List Dict
  | [], _ => []
  | c :: rest, seen =>
    if valTruthy (innOf c) ∧ innOf c ∉ seen then c :: dedupGo rest (innOf c :: seen)
    else dedupGo rest seen

/-- `CompanyParser.deduplicate_companies`. -/
def deduplicate_companies (cs : List Dict) : List Dict := dedupGo cs []

/-- Declarative first-seen-wins deduplication, written from the spec's
words: keep each record whose tax ID is present, dropping every later
record with the same tax ID, in input order.  Used as the specification
side of claim C5. -/
def firstWins : List Dict → List Dict
  | [] => []
  | c :: rest =>
    if valTruthy (innOf c) then
      c :: firstWins (rest.filter (fun d => decide (innOf d ≠ innOf c)))
    else firstWins rest
termination_by l => l.length
decreasing_by
  · exact Nat.lt_succ_of_le (rest.length_filter_le _)
  · exact Nat.lt_succ_self _

/-- Employee-count bucket of `enrich_with_additional_data`. -/
def sizeBucket (n : Int) : List Char :=
  if n ≤ 15 then "micro".toList
  else if n ≤ 100 then "small".toList
  else if n ≤ 250 then "medium".toList
  else "large".toList

/-- Revenue bucket of `enrich_with_additional_data`. -/
def revBucket (n : Int) : List Char :=
  if 1000000000 ≤ n then "large".toList
  else if 500000000 ≤ n then "medium".toList
  else "small".toList

/-- `company.get('revenue', 0)` read as an integer (records at the
enrichment and filter stages carry integer revenues). -/
def getRevenueInt (c : Dict) : Int :=
  match dictGet c "revenue".toList with
  | some (.vint n) => n
  | _ => 0

/-- The exception predicate of one `enrich_with_additional_data`
iteration: a truthy string employee count, a string or `None` revenue,
or a non-zero integer site make the `try` body raise (a string/None
compared with a number, or `re.sub` applied to an integer), and the
source's `except` branch appends the original record. -/
def enrichExc (c : Dict) : Bool :=
  (match dictGet c "employees".toList with
    | some (.vstr s) => !s.isEmpty
    | _ => false)
  || (match dictGet c "revenue".toList with
    | some (.vstr _) => true
    | some .vnull => true
    | _ => false)
  || (match dictGet c "site".toList with
    | some (.vint n) => n != 0
    | _ => false)

/-- The `size_category` assignment step (only for a truthy integer
employee count). -/
def enrichSize (c : Dict) : Dict :=
  match dictGet c "employees".toList with
  | some (.vint n) =>
    if n = 0 then c else dictSet c "size_category".toList (.vstr (sizeBucket n))
  | _ => c

/-- The site-cleaning step (`re.sub(r'\?.*$', '', site)` on a truthy
string site strips everything from the first `?` on; URLs contain no
newline, where `$` would differ). -/
def enrichSite (c : Dict) (c2 : Dict) : Dict :=
  match dictGet c "site".toList with
  | some (.vstr s) =>
    if s.isEmpty then c2
    else dictSet c2 "site".toList (.vstr (s.takeWhile (fun ch => ch ≠ '?')))
  | _ => c2

/-- One iteration of `CompanyParser.enrich_with_additional_data`:
size bucket (when employee count present and truthy), revenue bucket
(from `company.get('revenue', 0)`), site cleaning; an exception returns
the original record. -/
def enrich_one (c : Dict) : Dict :=
  if enrichExc c then c
  else
    enrichSite c
      (dictSet (enrichSize c) "revenue_category".toList (.vstr (revBucket (getRevenueInt c))))

/-- `CompanyParser.enrich_with_additional_data`. -/
def enrich_with_additional_data (cs : List Dict) : List Dict := cs.map enrich_one

/-! ### src/main.py -/

/-- `DataCollectionPipeline.filter_companies`: keep records whose
revenue is at least the configured minimum. -/
def filter_companies (minRevenue : Int) (cs : List Dict) : List Dict :=
  cs.filter (fun c => decide (minRevenue ≤ getRevenueInt c))

/-- The strong product keywords of `has_valid_cat_evidence`. -/
def strong_keywords : List (List Char) :=
  ["trados".toList, "memoq".toList, "smartcat".toList, "memsource".toList, "phrase".toList]

/-- `has_valid_cat_evidence` from `filter_by_cat_evidence`, as a
function of the two record fields it reads. -/
def has_valid_cat_evidence (evidenceRaw : List Char) (catScore : Int) : Bool :=
  let evidence := evidenceRaw.map ruLower
  if evidence.isEmpty || containsSub "не обнаружены".toList evidence
      || containsSub "ошибка".toList evidence
      || containsSub "не удалось".toList evidence then false
  else if 2 ≤ catScore then true
  else if strong_keywords.any (fun k => containsSub k evidence) then true
  else false

/-- `company.get('cat_evidence', '')` (records at this stage carry a
string evidence field). -/
def getEvidenceStr (c : Dict) : List Char :=
  match dictGet c "cat_evidence".toList with
  | some (.vstr s) => s
  | _ => []

/-- `company.get('cat_score', 0)`. -/
def getScoreInt (c : Dict) : Int :=
  match dictGet c "cat_score".toList with
  | some (.vint n) => n
  | _ => 0

/-- `DataCollectionPipeline.filter_by_cat_evidence`. -/
def filter_by_cat_evidence (cs : List Dict) : List Dict :=
  cs.filter (fun c => has_valid_cat_evidence (getEvidenceStr c) (getScoreInt c))

/-! ### src/cat_detector.py -/

/-- `config.search_params.keywords_cat` (embedded defaults of
src/config.py). -/
def keywords_cat : List (List Char) :=
  ["translation memory".toList, "tm".toList, "tms".toList, "cat-систем".toList,
   "cat tool".toList, "локализация".toList, "компьютерная поддержка перевода".toList,
   "терминологическая база".toList, "memoq".toList, "trados".toList, "smartcat".toList,
   "memsource".toList, "phrase".toList, "xtm".toList, "wordfast".toList, "переводческ".toList]

/-- `config.search_params.cat_products` (embedded defaults). -/
def cat_products : List (List Char) :=
  ["SDL Trados".toList, "memoQ".toList, "Smartcat".toList, "Memsource".toList,
   "Phrase".toList, "XTM".toList, "Wordfast".toList, "Transit".toList,
   "Across".toList, "Лингвотек".toList, "Промт".toList]

/-- `CATDetector.cat_keywords`: the configured keywords followed by the
extended list from `CATDetector.__init__`, in source order. -/
def cat_keywords : List (List Char) :=
  keywords_cat ++
  ["память переводов".toList, "tm-память".toList, "tm память".toList,
   "управление переводами".toList, "система управления переводами".toList,
   "платформа локализации".toList, "локализационная платформа".toList,
   "машинный перевод".toList, "mt".toList, "mt-система".toList,
   "qa проверка".toList, "quality assurance".toList, "lqa".toList,
   "терминологическое управление".toList, "терминологическая база данных".toList,
   "tbx".toList, "xliff".toList, "tmx".toList, "sdlxliff".toList,
   "переводческие технологии".toList, "инструменты переводчика".toList,
   "computer-assisted translation".toList, "computer aided translation".toList,
   "translation management system".toList, "localization platform".toList,
   "translation workflow".toList, "translation project management".toList,
   "translation memory system".toList, "terminology management".toList,
   "translation quality assurance".toList, "translation environment tool".toList,
   "multilingual content management".toList,
   "trados studio".toList, "sdl trados".toList, "memoq server".toList, "memoq web".toList,
   "smartcat.ai".toList, "smartcat platform".toList, "memsource editor".toList,
   "phrase tms".toList, "xtm cloud".toList, "xtm workflow".toList, "wordfast pro".toList,
   "transit nxt".toList, "across language server".toList, "lingotek".toList,
   "prome".toList, "promt".toList, "translate.ru".toList]

/-- `CATDetector.target_sections`. -/
def target_sections : List (List Char) :=
  ["/services".toList, "/technology".toList, "/solutions".toList, "/products".toList,
   "/translation".toList, "/localization".toList, "/technology-stack".toList,
   "/about".toList, "/company".toList, "/tools".toList, "/software".toList,
   "/methodology".toList, "/process".toList, "/workflow".toList,
   "/careers".toList, "/jobs".toList, "/vacancies".toList]

/-- The product substrings checked by `get_keyword_confidence`. -/
def product_keywords : List (List Char) :=
  ["trados".toList, "memoq".toList, "smartcat".toList, "memsource".toList, "phrase".toList]

/-- The general CAT-term substrings checked by
`get_keyword_confidence`. -/
def general_terms : List (List Char) :=
  ["translation memory".toList, "tm".toList, "tms".toList, "локализация".toList]

/-- `CATDetector.get_keyword_confidence`.  The Python float constants
0.9 / 0.7 / 0.5 are modelled by the exact rationals they denote in the
source text. -/
def get_keyword_confidence (keyword : List Char) : ℚ :=
  let kl := keyword.map ruLower
  if product_keywords.any (fun p => containsSub p kl) then 9 / 10
  else if general_terms.any (fun t => containsSub t kl) then 7 / 10
  else 1 / 2

/-- Model of `\w` for the texts at hand: ASCII alphanumerics,
underscore, and Russian letters. -/
def isWordChar (c : Char) : Bool :=
  let n := (ruLower c).toNat
  isDig c || (97 ≤ n && n ≤ 122) || (1072 ≤ n && n ≤ 1103) || n = 1105 || c = '_'

/-- Word-char-ness of the character at index `i` (`false` outside). -/
def wAt (text : List Char) (i : Nat) : Bool :=
  match (text.drop i).head? with
  | some c => isWordChar c
  | none => false

/-- The `\b` word boundary at index `i`. -/
def boundaryAt (text : List Char) (i : Nat) : Bool :=
  match i with
  | 0 => wAt text 0
  | j + 1 => wAt text j != wAt text (j + 1)

/-- `re.finditer(rf'\b\x7bre.escape(kw)\x7d\b', text)`: the non-overlapping
left-to-right match positions.  `fuel` bounds the scan
(`text.length + 1` at the top call). -/
def findMatches (kw text : List Char) : Nat → Nat → List Nat
  | _, 0 => []
  | i, fuel + 1 =>
    if i + kw.length ≤ text.length then
      if listStartsWith kw (text.drop i) && boundaryAt text i
          && boundaryAt text (i + kw.length) then
        i :: findMatches kw text (i + kw.length) fuel
      else findMatches kw text (i + 1) fuel
    else []

/-- An evidence item of `search_cat_evidence`. -/
structure EvidenceItem where
  keyword : List Char
  context : List Char
  sectionTag : List Char
  confidence : ℚ
deriving DecidableEq

/-- `CATDetector.search_cat_evidence`: for every keyword of
`cat_keywords`, every whole-word occurrence in the lowercased text
becomes an item with a ±50-character context window. -/
def search_cat_evidence (text : List Char) : List EvidenceItem :=
  let textLower := text.map ruLower
  cat_keywords.flatMap (fun kw =>
    let kwl := kw.map ruLower
    (findMatches kwl textLower 0 (textLower.length + 1)).map (fun i =>
      let st := i - 50
      let en := min text.length (i + kwl.length + 50)
      { keyword := kw, context := pyStrip ((text.take en).drop st),
        sectionTag := "main_page".toList, confidence := get_keyword_confidence kw }))

/-- First-occurrence deduplication; the model of Python's
`list(set(xs))`, whose iteration order the source does not control. -/
def dedupAux {α : Type} [DecidableEq α] : List α → List α → List α
  | [], _ => []
  | a :: t, seen => if a ∈ seen then dedupAux t seen else a :: dedupAux t (a :: seen)

/-- See `dedupAux`. -/
def dedupKeepFirst {α : Type} [DecidableEq α] (l : List α) : List α := dedupAux l []

/-- `CATDetector.analyze_job_postings`, given the texts of the career
pages the source fetched successfully (at most the first three career
links).  Items are retagged and their confidence boosted by 0.1 capped
at 1. -/
def jobsEvidence (careerTexts : List (List Char)) : List EvidenceItem :=
  careerTexts.flatMap (fun t =>
    (search_cat_evidence (t.map ruLower)).map (fun e =>
      { e with sectionTag := "job_posting".toList,
               confidence := min 1 (e.confidence + 1 / 10) }))

/-- `CATDetector.analyze_website_sections`: the first five target
sections, each fetch either failing (`none`) or yielding a text. -/
def sectionsEvidence (fetched : List (Option (List Char))) : List EvidenceItem :=
  ((target_sections.take 5).zip fetched).flatMap (fun p =>
    match p.2 with
    | none => []
    | some t => (search_cat_evidence (t.map ruLower)).map (fun e => { e with sectionTag := p.1 }))

/-- Whole-word containment (`re.search(rf'\b\x7b...\x7d\b', context)`). -/
def hasWordMatch (pat text : List Char) : Bool :=
  !(findMatches pat text 0 (text.length + 1)).isEmpty

/-- `CATDetector.extract_cat_products`: configured product names that
appear in some item's keyword (as a substring) or context (whole-word).
The source accumulates a Python `set`; the model keeps first-occurrence
order. -/
def extract_cat_products (evs : List EvidenceItem) : List (List Char) :=
  dedupKeepFirst (evs.flatMap (fun ev =>
    cat_products.filter (fun p =>
      let pl := p.map ruLower
      containsSub pl (ev.keyword.map ruLower)
        || hasWordMatch pl (ev.context.map ruLower))))

/-- `CATDetector.translate_section_name`. -/
def translate_section_name (s : List Char) : List Char :=
  let translations : List (List Char × List Char) :=
    [("main_page".toList, "Главная страница".toList),
     ("job_posting".toList, "Вакансии".toList),
     ("/services".toList, "Раздел услуг".toList),
     ("/technology".toList, "Раздел технологий".toList),
     ("/products".toList, "Раздел продуктов".toList),
     ("/translation".toList, "Раздел переводов".toList),
     ("/about".toList, "О компании".toList),
     ("/careers".toList, "Карьера".toList)]
  match translations.find? (fun p => p.1 = s) with
  | some p => p.2
  | none => s

/-- Grouping step of `prepare_evidence_description` (a Python dict of
lists, in insertion order). -/
def addGroup (acc : List (List Char × List (List Char))) (sec kw : List Char) :
    List (List Char × List (List Char)) :=
  if acc.any (fun g => g.1 = sec) then
    acc.map (fun g => if g.1 = sec then (g.1, g.2 ++ [kw]) else g)
  else acc ++ [(sec, [kw])]

/-- The four product substrings that `prepare_evidence_description`
highlights (note: unlike `get_keyword_confidence`, without `phrase`). -/
def description_products : List (List Char) :=
  ["trados".toList, "memoq".toList, "smartcat".toList, "memsource".toList]

/-- `CATDetector.prepare_evidence_description`: product mentions first
(up to three), then up to five distinct keywords per section, joined and
hard-truncated to 500 characters. -/
def prepare_evidence_description (evs : List EvidenceItem) : List Char :=
  if evs.isEmpty then "Признаки CAT-систем не обнаружены".toList
  else
    let sections := evs.foldl (fun acc e => addGroup acc e.sectionTag e.keyword) []
    let prodKws := (evs.filter (fun ev =>
      description_products.any (fun p => containsSub p (ev.keyword.map ruLower)))).map
        (fun ev => ev.keyword)
    let descriptions :=
      (if !prodKws.isEmpty then
        ["Упоминание продуктов: ".toList ++
          List.intercalate ", ".toList ((dedupKeepFirst prodKws).take 3)]
      else []) ++
      (sections.filter (fun g => !((dedupKeepFirst g.2).take 5).isEmpty)).map
        (fun g => translate_section_name g.1 ++ ": ".toList ++
          List.intercalate ", ".toList ((dedupKeepFirst g.2).take 5))
    let full := List.intercalate "; ".toList descriptions
    if 500 < full.length then full.take 497 ++ "...".toList else full

/-- The evidence keys written by the scorer. -/
def evidenceKeys : List (List Char) :=
  ["cat_evidence".toList, "cat_product".toList, "cat_score".toList,
   "cat_keywords_found".toList]

/-- `company.get('site', '')` as a string.  A non-string, non-falsy
value here would raise inside `Utils.is_valid_url` and surface in
`analyze_multiple_companies`; records reaching this stage carry a string
(or absent) site, and the model sends any other value to the falsy
branch. -/
def getSite (c : Dict) : List Char :=
  match (dictGet c "site".toList).getD (.vstr []) with
  | .vstr s => s
  | _ => []

/-- The environment of one website analysis: the outcome of every
side-effecting step of `analyze_company_website`.  `valid_url` stands
for `Utils.is_valid_url` (a pure URL-shape regex none of the claims
depend on); `raiseExc` is an exception raised anywhere inside the
function's `try` block, carrying `str(e)`; `mainPage` is the fetched
main-page text (`none` = fetch failed); `careerTexts` and
`sectionTexts` are the fetch outcomes used by `analyze_job_postings`
and `analyze_website_sections`. -/
structure AnalysisEnv where
  valid_url : List Char → Bool
  raiseExc : Option (List Char)
  mainPage : Option (List Char)
  careerTexts : List (List Char)
  sectionTexts : List (Option (List Char))

/-- The combined evidence of one analysis: main page, career pages,
target sections, in source order. -/
def allEvidence (env : AnalysisEnv) (mainText : List Char) : List EvidenceItem :=
  search_cat_evidence (mainText.map ruLower) ++ jobsEvidence env.careerTexts
    ++ sectionsEvidence env.sectionTexts

/-- The error record of the scorer's `except` branches. -/
def analysisErrorRecord (c : Dict) (msg : List Char) : Dict :=
  dictSets c
    [("cat_evidence".toList, .vstr ("Ошибка анализа: ".toList ++ msg)),
     ("cat_product".toList, .vstr []),
     ("cat_score".toList, .vint 0)]

/-- `CATDetector.analyze_company_website`. -/
def analyze_company_website (env : AnalysisEnv) (c : Dict) : Dict :=
  if (getSite c).isEmpty || !env.valid_url (getSite c) then
    dictSets c
      [("cat_evidence".toList, .vstr "Нет веб-сайта или неверный URL".toList),
       ("cat_product".toList, .vstr []),
       ("cat_score".toList, .vint 0)]
  else
    match env.raiseExc with
    | some m => analysisErrorRecord c m
    | none =>
      match env.mainPage with
      | none =>
        dictSets c
          [("cat_evidence".toList, .vstr "Не удалось загрузить сайт".toList),
           ("cat_product".toList, .vstr []),
           ("cat_score".toList, .vint 0)]
      | some mainText =>
        if (allEvidence env mainText).isEmpty then
          dictSets c
            [("cat_evidence".toList, .vstr "Признаки CAT-систем не обнаружены".toList),
             ("cat_product".toList, .vstr []),
             ("cat_score".toList, .vint 0)]
        else
          dictSets c
            [("cat_evidence".toList,
               .vstr (prepare_evidence_description (allEvidence env mainText))),
             ("cat_product".toList,
               .vstr (List.intercalate ", ".toList
                 (extract_cat_products (allEvidence env mainText)))),
             ("cat_score".toList, .vint (allEvidence env mainText).length),
             ("cat_keywords_found".toList,
               .vstr (List.intercalate "; ".toList
                 (dedupKeepFirst ((allEvidence env mainText).map (fun e => e.keyword)))))]

/-- `CATDetector.analyze_multiple_companies`, over an abstract
per-company analysis `f` (in the source, `analyze_company_website`,
whose unexpected exceptions are the `Except.error` case).  The loop's
`try/except` turns an exception into the error record and continues. -/
def analyze_multiple_companies (f : Dict → Except (List Char) Dict) :
    List Dict → List Dict
  | [] => []
  | c :: rest =>
    (match f c with
      | .ok d => d
      | .error m => analysisErrorRecord c m) :: analyze_multiple_companies f rest

/-! ## Infrastructure lemmas -/

theorem isDig_iff {c : Char} : isDig c = true ↔ 48 ≤ c.toNat ∧ c.toNat ≤ 57 := by
  simp [isDig]

theorem ruLower_digit {c : Char} (h : isDig c = true) : ruLower c = c := by
  rw [isDig_iff] at h
  simp only [ruLower]
  split_ifs with h1 h2 h3 <;> first | rfl | omega

theorem leadDigits_cons {c : Char} {t : List Char} :
    leadDigits (c :: t) = if isDig c then leadDigits t + 1 else 0 := by
  simp only [leadDigits, List.takeWhile_cons]
  split <;> simp

theorem leadDigits_le_length (s : List Char) : leadDigits s ≤ s.length := by
  simpa [leadDigits] using (List.takeWhile_sublist (l := s) (p := isDig)).length_le

theorem takeDigits_eq_some_iff {n : Nat} {s : List Char} {p : List Char × List Char} :
    takeDigits n s = some p ↔ n ≤ leadDigits s ∧ p = (s.take n, s.drop n) := by
  induction n generalizing s p with
  | zero => simp [takeDigits, eq_comm]
  | succ n ih =>
    cases s with
    | nil => simp [takeDigits, leadDigits]
    | cons c t =>
      by_cases hc : isDig c
      · simp only [takeDigits, hc, if_true, leadDigits_cons]
        cases hp : takeDigits n t with
        | none =>
          constructor
          · intro h; simp at h
          · rintro ⟨hle, rfl⟩
            have : takeDigits n t = some (t.take n, t.drop n) := by
              rw [ih]; exact ⟨by omega, rfl⟩
            rw [this] at hp; cases hp
        | some q =>
          obtain ⟨hle, hq⟩ := ih.mp hp
          subst hq
          simp only [List.take_succ_cons, List.drop_succ_cons]
          constructor
          · rintro h
            cases p with
            | mk a b =>
              simp only [Option.some.injEq, Prod.mk.injEq] at h
              exact ⟨by omega, by simp [← h.1, ← h.2]⟩
          · rintro ⟨_, rfl⟩; simp
      · simp only [takeDigits, hc, if_false, leadDigits_cons]
        simp [hc]

theorem takeDigits_isSome_iff {n : Nat} {s : List Char} :
    (takeDigits n s).isSome = true ↔ n ≤ leadDigits s := by
  cases h : takeDigits n s with
  | none =>
    simp only [Option.isSome_none, Bool.false_eq_true, false_iff]
    intro hle
    have : takeDigits n s = some (s.take n, s.drop n) := by
      rw [takeDigits_eq_some_iff]; exact ⟨hle, rfl⟩
    rw [this] at h; cases h
  | some p =>
    have := takeDigits_eq_some_iff.mp h
    simp [this.1]

theorem take_sub_takeWhile {s : List Char} {n : Nat} (h : n ≤ leadDigits s) :
    s.take n = (s.takeWhile isDig).take n := by
  conv_lhs => rw [← List.takeWhile_append_dropWhile (p := isDig) (l := s)]
  exact List.take_append_of_le_length h

theorem take_all_digits {s : List Char} {n : Nat} (h : n ≤ leadDigits s) :
    ∀ c ∈ s.take n, isDig c = true := by
  intro c hc
  rw [take_sub_takeWhile h] at hc
  exact List.mem_takeWhile_imp (List.take_subset _ _ hc)

theorem length_take_of_le_lead {s : List Char} {n : Nat} (h : n ≤ leadDigits s) :
    (s.take n).length = n := by
  have := leadDigits_le_length s
  simp [List.length_take]; omega

theorem headDrop_digit {s : List Char} {n : Nat} (h : n < leadDigits s) :
    ∃ a u, s.drop n = a :: u ∧ isDig a = true := by
  induction s generalizing n with
  | nil => simp [leadDigits] at h
  | cons c t ih =>
    rw [leadDigits_cons] at h
    by_cases hc : isDig c
    · rw [if_pos hc] at h
      cases n with
      | zero => exact ⟨c, t, rfl, hc⟩
      | succ m =>
        obtain ⟨a, u, hdrop, ha⟩ := @ih m (by omega)
        exact ⟨a, u, by simpa using hdrop, ha⟩
    · rw [if_neg hc] at h; omega

theorem lookNonDigit_drop_lead (s : List Char) :
    lookNonDigit (s.drop (leadDigits s)) = true := by
  induction s with
  | nil => rfl
  | cons c t ih =>
    rw [leadDigits_cons]
    by_cases hc : isDig c
    · simpa [hc] using ih
    · simp [hc, lookNonDigit]

theorem lookNonDigit_drop_iff {s : List Char} {n : Nat} (hn : n ≤ leadDigits s) :
    lookNonDigit (s.drop n) = true ↔ n = leadDigits s := by
  constructor
  · intro h
    by_contra hne
    obtain ⟨a, u, hdrop, ha⟩ := headDrop_digit (s := s) (n := n) (by omega)
    rw [hdrop] at h
    simp [lookNonDigit, ha] at h
  · rintro rfl; exact lookNonDigit_drop_lead s

theorem matchP2At_eq_some {s : List Char} {d : List Char} (h : matchP2At s = some d) :
    ∃ n, (n = 10 ∨ n = 12) ∧ n ≤ leadDigits s ∧ d = s.take n := by
  unfold matchP2At at h
  cases h10 : takeDigits 10 s with
  | none => rw [h10] at h; cases h
  | some p10 =>
    obtain ⟨hle10, hp10⟩ := takeDigits_eq_some_iff.mp h10
    rw [h10, hp10] at h
    simp only at h
    split at h
    · exact ⟨10, Or.inl rfl, hle10, by simpa using (Option.some.inj h).symm⟩
    · cases h12 : takeDigits 12 s with
      | none => rw [h12] at h; cases h
      | some p12 =>
        obtain ⟨hle12, hp12⟩ := takeDigits_eq_some_iff.mp h12
        rw [h12, hp12] at h
        simp only at h
        split at h
        · exact ⟨12, Or.inr rfl, hle12, by simpa using (Option.some.inj h).symm⟩
        · cases h

theorem matchP2At_ne_none_iff {s : List Char} :
    matchP2At s ≠ none ↔ leadDigits s = 10 ∨ leadDigits s = 12 := by
  constructor
  · intro h
    unfold matchP2At at h
    cases h10 : takeDigits 10 s with
    | none => rw [h10] at h; simp at h
    | some p10 =>
      obtain ⟨hle10, hp10⟩ := takeDigits_eq_some_iff.mp h10
      rw [h10, hp10] at h
      simp only at h
      split at h
      · rename_i hlook
        exact Or.inl ((lookNonDigit_drop_iff hle10).mp hlook).symm
      · cases h12 : takeDigits 12 s with
        | none => rw [h12] at h; simp at h
        | some p12 =>
          obtain ⟨hle12, hp12⟩ := takeDigits_eq_some_iff.mp h12
          rw [h12, hp12] at h
          simp only at h
          split at h
          · rename_i hlook
            exact Or.inr ((lookNonDigit_drop_iff hle12).mp hlook).symm
          · simp at h
  · intro h
    have hle10 : 10 ≤ leadDigits s := by omega
    have h10 : takeDigits 10 s = some (s.take 10, s.drop 10) := by
      rw [takeDigits_eq_some_iff]; exact ⟨hle10, rfl⟩
    unfold matchP2At
    rw [h10]
    cases h with
    | inl h10' =>
      have : lookNonDigit (s.drop 10) = true := by
        rw [lookNonDigit_drop_iff hle10]; omega
      simp [this]
    | inr h12 =>
      have hlook10 : lookNonDigit (s.drop 10) = false := by
        by_contra hc
        have : lookNonDigit (s.drop 10) = true := by
          cases hb : lookNonDigit (s.drop 10) with
          | false => exact absurd hb hc
          | true => rfl
        rw [lookNonDigit_drop_iff hle10] at this; omega
      have h12' : takeDigits 12 s = some (s.take 12, s.drop 12) := by
        rw [takeDigits_eq_some_iff]; exact ⟨by omega, rfl⟩
      have hlook12 : lookNonDigit (s.drop 12) = true := by
        rw [lookNonDigit_drop_iff (by omega)]; omega
      simp [hlook10, h12', hlook12]

theorem searchP2_eq_some {s d : List Char} (h : searchP2 s = some d) :
    ∃ t, t <:+ s ∧ matchP2At t = some d := by
  induction s with
  | nil => cases h
  | cons c u ih =>
    unfold searchP2 at h
    cases hm : matchP2At (c :: u) with
    | some d' =>
      rw [hm] at h
      have h' : some d' = some d := h
      exact ⟨c :: u, List.suffix_refl _, hm.trans h'⟩
    | none =>
      rw [hm] at h
      obtain ⟨t, hsuf, hmt⟩ := ih h
      exact ⟨t, hsuf.trans (List.suffix_cons c u), hmt⟩

theorem searchP2_ne_none {s : List Char}
    (h : ∃ t, t <:+ s ∧ matchP2At t ≠ none) : searchP2 s ≠ none := by
  induction s with
  | nil =>
    obtain ⟨t, hsuf, hne⟩ := h
    rw [List.suffix_nil.mp hsuf] at hne
    exact absurd rfl hne
  | cons c u ih =>
    obtain ⟨t, hsuf, hne⟩ := h
    unfold searchP2
    cases hm : matchP2At (c :: u) with
    | some d => simp
    | none =>
      simp only
      rcases List.suffix_cons_iff.mp hsuf with rfl | hsuf'
      · exact absurd hm hne
      · exact ih ⟨t, hsuf', hne⟩

theorem matchChars_suffix {ps s r : List Char} (h : matchChars ps s = some r) :
    r <:+ s := by
  induction ps generalizing s with
  | nil => cases h; exact List.suffix_refl _
  | cons p ps ih =>
    cases s with
    | nil => cases h
    | cons c t =>
      unfold matchChars at h
      split at h
      · exact (ih h).trans (List.suffix_cons c t)
      · cases h

theorem afterColon_suffix (r : List Char) : afterColon r <:+ r := by
  cases r with
  | nil => exact List.suffix_refl _
  | cons c t =>
    simp only [afterColon]
    by_cases hc : c = ':' ∨ c = '='
    · rw [if_pos hc]; exact List.suffix_cons c t
    · rw [if_neg hc]

theorem matchLabelAt_digits {label s d : List Char} (h : matchLabelAt label s = some d) :
    ∃ u, u <:+ s ∧ 10 ≤ leadDigits u ∧ d = u.take 10 := by
  unfold matchLabelAt at h
  cases hmc : matchChars label s with
  | none => rw [hmc] at h; cases h
  | some r1 =>
    rw [hmc] at h
    have h2 :
        (match takeDigits 10 ((afterColon (r1.dropWhile isSpaceCh)).dropWhile isSpaceCh) with
          | some (d', _) => some d'
          | none => none) = some d := h
    have hsuf4 :
        (afterColon (r1.dropWhile isSpaceCh)).dropWhile isSpaceCh <:+ s :=
      ((List.dropWhile_suffix _).trans
        ((afterColon_suffix _).trans (List.dropWhile_suffix _))).trans
        (matchChars_suffix hmc)
    cases htd :
        takeDigits 10 ((afterColon (r1.dropWhile isSpaceCh)).dropWhile isSpaceCh) with
    | none => rw [htd] at h2; cases h2
    | some p =>
      rw [htd] at h2
      obtain ⟨hle, hp⟩ := takeDigits_eq_some_iff.mp htd
      refine ⟨(afterColon (r1.dropWhile isSpaceCh)).dropWhile isSpaceCh, hsuf4, hle, ?_⟩
      cases p with
      | mk a b =>
        have h' : some a = some d := h2
        simp only [Prod.mk.injEq] at hp
        rw [← Option.some.inj h', hp.1]

theorem searchLabel_eq_some {label s d : List Char} (h : searchLabel label s = some d) :
    ∃ t, t <:+ s ∧ matchLabelAt label t = some d := by
  induction s with
  | nil => cases h
  | cons c u ih =>
    unfold searchLabel at h
    cases hm : matchLabelAt label (c :: u) with
    | some d' =>
      rw [hm] at h
      have h' : some d' = some d := h
      exact ⟨c :: u, List.suffix_refl _, hm.trans h'⟩
    | none =>
      rw [hm] at h
      obtain ⟨t, hsuf, hmt⟩ := ih h
      exact ⟨t, hsuf.trans (List.suffix_cons c u), hmt⟩

theorem validate_of_take {u : List Char} {n : Nat} (hn : n = 10 ∨ n = 12)
    (hle : n ≤ leadDigits u) : validate_inn (u.take n) = true := by
  have hlen : (u.take n).length = n := length_take_of_le_lead hle
  have hdig : ∀ c ∈ u.take n, isDig c = true := take_all_digits hle
  simp only [validate_inn, Bool.and_eq_true, Bool.or_eq_true, beq_iff_eq]
  refine ⟨⟨?_, List.all_eq_true.mpr hdig⟩, ?_⟩
  · cases hn with
    | inl h => subst h; simp [List.isEmpty_iff]; intro hne; rw [hne] at hlen; simp at hlen
    | inr h => subst h; simp [List.isEmpty_iff]; intro hne; rw [hne] at hlen; simp at hlen
  · omega

theorem extract_inn_valid {s d : List Char} (h : extract_inn s = some d) :
    validate_inn d = true := by
  unfold extract_inn at h
  split at h
  · cases h
  · cases h1 : searchLabel "ИНН".toList s with
    | some d1 =>
      rw [h1] at h
      obtain ⟨t, _, hm⟩ := searchLabel_eq_some h1
      obtain ⟨u, _, hle, hd⟩ := matchLabelAt_digits hm
      rw [← Option.some.inj h, hd]
      exact validate_of_take (Or.inl rfl) hle
    | none =>
      rw [h1] at h
      cases h2 : searchP2 s with
      | some d2 =>
        rw [h2] at h
        obtain ⟨t, _, hm⟩ := searchP2_eq_some h2
        obtain ⟨n, hn, hle, hd⟩ := matchP2At_eq_some hm
        rw [← Option.some.inj h, hd]
        exact validate_of_take hn hle
      | none =>
        rw [h2] at h
        obtain ⟨t, _, hm⟩ := searchLabel_eq_some h
        obtain ⟨u, _, hle, hd⟩ := matchLabelAt_digits hm
        rw [hd]
        exact validate_of_take (Or.inl rfl) hle

theorem hasLongDigitRun_iff {s : List Char} :
    hasLongDigitRun s = true ↔ ∃ t, t <:+ s ∧ 10 ≤ leadDigits t := by
  simp only [hasLongDigitRun, List.any_eq_true, List.mem_tails, decide_eq_true_iff]

theorem maximal_run {t : List Char} (h : 10 ≤ leadDigits t) :
    ∃ u, u <:+ t ∧ (leadDigits u = 10 ∨ leadDigits u = 12) := by
  induction t with
  | nil => simp [leadDigits] at h
  | cons c r ih =>
    by_cases h10 : leadDigits (c :: r) = 10 ∨ leadDigits (c :: r) = 12
    · exact ⟨c :: r, List.suffix_refl _, h10⟩
    · push_neg at h10
      have hgt : 11 ≤ leadDigits (c :: r) := by omega
      rw [leadDigits_cons] at hgt
      by_cases hc : isDig c
      · rw [if_pos hc] at hgt
        obtain ⟨u, hsuf, hu⟩ := ih (by omega)
        exact ⟨u, hsuf.trans (List.suffix_cons c r), hu⟩
      · rw [if_neg hc] at hgt; omega

theorem acceptsInn_of_extract {s d : List Char} (h : extract_inn s = some d) :
    acceptsInn s = true := by
  unfold acceptsInn
  rw [h]
  exact extract_inn_valid h

theorem acceptsInn_iff_hasLongDigitRun (s : List Char) :
    acceptsInn s = true ↔ hasLongDigitRun s = true := by
  constructor
  · intro h
    unfold acceptsInn at h
    cases he : extract_inn s with
    | none => rw [he] at h; cases h
    | some d =>
      rw [hasLongDigitRun_iff]
      unfold extract_inn at he
      split at he
      · cases he
      · cases h1 : searchLabel "ИНН".toList s with
        | some d1 =>
          obtain ⟨t, hsuf, hm⟩ := searchLabel_eq_some h1
          obtain ⟨u, hsufu, hle, _⟩ := matchLabelAt_digits hm
          exact ⟨u, hsufu.trans hsuf, hle⟩
        | none =>
          rw [h1] at he
          cases h2 : searchP2 s with
          | some d2 =>
            obtain ⟨t, hsuf, hm⟩ := searchP2_eq_some h2
            obtain ⟨n, hn, hle, _⟩ := matchP2At_eq_some hm
            exact ⟨t, hsuf, by omega⟩
          | none =>
            rw [h2] at he
            obtain ⟨t, hsuf, hm⟩ := searchLabel_eq_some he
            obtain ⟨u, hsufu, hle, _⟩ := matchLabelAt_digits hm
            exact ⟨u, hsufu.trans hsuf, hle⟩
  · intro h
    obtain ⟨t, hsuf, hle⟩ := hasLongDigitRun_iff.mp h
    obtain ⟨u, hsufu, hu⟩ := maximal_run hle
    have hmp2 : matchP2At u ≠ none := matchP2At_ne_none_iff.mpr hu
    have hsp2 : searchP2 s ≠ none := searchP2_ne_none ⟨u, hsufu.trans hsuf, hmp2⟩
    have hne : s ≠ [] := by
      intro hnil
      subst hnil
      rw [List.suffix_nil.mp hsuf] at hle
      simp [leadDigits] at hle
    have hex : extract_inn s ≠ none := by
      unfold extract_inn
      rw [if_neg (by simpa [List.isEmpty_iff] using hne)]
      cases h1 : searchLabel "ИНН".toList s with
      | none =>
        cases h2 : searchP2 s with
        | none => exact absurd h2 hsp2
        | some d2 => simp
      | some d1 => simp
    cases he : extract_inn s with
    | none => exact absurd he hex
    | some d => exact acceptsInn_of_extract he

/-! ## Claim C1 -/

/-- C1, counterexample: the input `"12345678901"` consists of a single
maximal run of 11 digits — by the claim the extractor-validator pair
must reject it — yet `extract_inn` matches the last ten digits of the
run (the lookahead `(?=\D|$)` succeeds at the end of the string) and
`validate_inn` accepts the result, so the claim is false on this
input. -/
theorem claim_C1_counterexample :
    ¬ (acceptsInn "12345678901".toList = true →
        (10 ∈ digitRuns "12345678901".toList ∨ 12 ∈ digitRuns "12345678901".toList)) := by
  decide

/-- C1, amended: the tax-ID extractor (`Utils.extract_inn` followed by
`Utils.validate_inn`) accepts an input string exactly when the string
contains a run of at least 10 consecutive decimal digits (the accepted
value is then a 10- or 12-digit substring of that run); every input
whose digit runs are all shorter than 10 is rejected. -/
theorem claim_C1_amended :
    ∀ s : List Char, acceptsInn s = true ↔ hasLongDigitRun s = true :=
  acceptsInn_iff_hasLongDigitRun

/-! ## Claim C2 -/

/-- C2, counterexample: the claim asserts that every record with
`evidence_score = 0` is rejected regardless of its evidence text, but
`has_valid_cat_evidence` accepts evidence text `"smartcat"` with score
0 via the strong-keyword branch, which is reached whenever the score
test fails, including at score 0. -/
theorem claim_C2_counterexample :
    has_valid_cat_evidence "smartcat".toList 0 = true := by decide

/-- C2, amended: `has_valid_cat_evidence` accepts exactly the records
whose evidence text is non-empty and, after lowercasing, contains none
of the three negative markers `"не обнаружены"` (not detected),
`"ошибка"` (error), `"не удалось"` (could not load) — the no-site
marker text is not checked — and for which the score is at least 2 or
the lowercased text contains one of the strong product keywords.  In
particular a record with score 0 and a strong keyword in its text is
accepted. -/
theorem claim_C2_amended :
    ∀ (ev : List Char) (score : Int),
      has_valid_cat_evidence ev score = true ↔
        (ev ≠ [] ∧
         containsSub "не обнаружены".toList (ev.map ruLower) = false ∧
         containsSub "ошибка".toList (ev.map ruLower) = false ∧
         containsSub "не удалось".toList (ev.map ruLower) = false ∧
         (2 ≤ score ∨ ∃ k ∈ strong_keywords, containsSub k (ev.map ruLower) = true)) := by
  intro ev score
  simp only [has_valid_cat_evidence]
  split_ifs with h1 h2 h3
  · constructor
    · intro h; cases h
    · rintro ⟨hne, hm1, hm2, hm3, _⟩
      simp only [Bool.or_eq_true, List.isEmpty_eq_true, List.map_eq_nil_iff,
        hm1, hm2, hm3, Bool.false_eq_true, or_false] at h1
      exact hne h1
  · simp only [Bool.or_eq_true, List.isEmpty_eq_true, List.map_eq_nil_iff, not_or,
      Bool.not_eq_true] at h1
    obtain ⟨⟨⟨hne, hm1⟩, hm2⟩, hm3⟩ := h1
    exact ⟨fun _ => ⟨hne, hm1, hm2, hm3, Or.inl h2⟩, fun _ => rfl⟩
  · simp only [Bool.or_eq_true, List.isEmpty_eq_true, List.map_eq_nil_iff, not_or,
      Bool.not_eq_true] at h1
    obtain ⟨⟨⟨hne, hm1⟩, hm2⟩, hm3⟩ := h1
    exact ⟨fun _ => ⟨hne, hm1, hm2, hm3, Or.inr (List.any_eq_true.mp h3)⟩, fun _ => rfl⟩
  · constructor
    · intro h; cases h
    · rintro ⟨_, _, _, _, hor⟩
      rcases hor with h | h
      · exact absurd h h2
      · exact absurd (List.any_eq_true.mpr h) h3

/-! ## Claim C3: lemmas on decimal representations -/

theorem truncMul_eq_floor (ip fp k m : Nat) :
    ((truncMul ip fp k m : Nat) : ℤ) = ⌊((ip : ℚ) + (fp : ℚ) / 10 ^ k) * (m : ℚ)⌋ := by
  have h10 : ((10 : ℚ) ^ k) ≠ 0 := by positivity
  have hval : ((ip : ℚ) + (fp : ℚ) / 10 ^ k) * (m : ℚ)
      = (((ip * 10 ^ k + fp) * m : ℕ) : ℚ) / ((10 ^ k : ℕ) : ℚ) := by
    push_cast
    field_simp
  rw [hval, Rat.floor_natCast_div_natCast]
  simp [truncMul]

theorem digitChar_isDig {d : Nat} (h : d < 10) : isDig (Nat.digitChar d) = true := by
  interval_cases d <;> decide

theorem digitChar_val {d : Nat} (h : d < 10) : (Nat.digitChar d).toNat - 48 = d := by
  interval_cases d <;> decide

theorem digitsVal_rev_map {ds : List Nat} (h : ∀ d ∈ ds, d < 10) :
    digitsVal ((ds.map Nat.digitChar).reverse) = Nat.ofDigits 10 ds := by
  induction ds with
  | nil => rfl
  | cons d t ih =>
    have hd : d < 10 := h d (by simp)
    have ht : ∀ x ∈ t, x < 10 := fun x hx => h x (by simp [hx])
    simp only [List.map_cons, List.reverse_cons]
    rw [digitsVal, List.foldl_append]
    simp only [List.foldl_cons, List.foldl_nil]
    rw [← digitsVal, ih ht, Nat.ofDigits_cons, digitChar_val hd]
    ring

theorem digitsVal_natRepr (m : Nat) : digitsVal (natRepr m) = m := by
  unfold natRepr
  split
  · rename_i h; rw [h]; rfl
  · rw [digitsVal_rev_map (fun d hd => Nat.digits_lt_base (by norm_num) hd),
      Nat.ofDigits_digits]

theorem natRepr_all_digits (m : Nat) : ∀ c ∈ natRepr m, isDig c = true := by
  unfold natRepr
  split
  · intro c hc
    simp only [List.mem_singleton] at hc
    rw [hc]; decide
  · intro c hc
    simp only [List.mem_reverse, List.mem_map] at hc
    obtain ⟨d, hd, rfl⟩ := hc
    exact digitChar_isDig (Nat.digits_lt_base (by norm_num) hd)

theorem natRepr_ne_nil (m : Nat) : natRepr m ≠ [] := by
  unfold natRepr
  split
  · simp
  · rename_i h
    simp only [ne_eq, List.reverse_eq_nil_iff, List.map_eq_nil_iff]
    exact Nat.digits_ne_nil_iff_ne_zero.mpr h

theorem listStartsWith_mem {needle t : List Char} (h : listStartsWith needle t = true) :
    ∀ x ∈ needle, x ∈ t := by
  induction needle generalizing t with
  | nil => intro x hx; cases hx
  | cons p ps ih =>
    cases t with
    | nil => cases h
    | cons c u =>
      simp only [listStartsWith, Bool.and_eq_true, beq_iff_eq] at h
      intro x hx
      rcases List.mem_cons.mp hx with rfl | hx'
      · rw [h.1]; exact List.mem_cons_self _ _
      · exact List.mem_cons_of_mem _ (ih h.2 x hx')

theorem containsSub_false_of_digits {needle hay : List Char} {x : Char}
    (hx : x ∈ needle) (hxd : isDig x = false)
    (hall : ∀ c ∈ hay, isDig c = true) : containsSub needle hay = false := by
  cases h : containsSub needle hay
  · rfl
  · rw [containsSub, List.any_eq_true] at h
    obtain ⟨t, ht, hsw⟩ := h
    obtain ⟨pre, hpre⟩ := (List.mem_tails _ _).mp ht
    have hxt : x ∈ t := listStartsWith_mem hsw x hx
    have hxh : x ∈ hay := by rw [← hpre]; exact List.mem_append_right _ hxt
    rw [hall x hxh] at hxd
    cases hxd

theorem map_ruLower_digits {l : List Char} (hall : ∀ c ∈ l, isDig c = true) :
    l.map ruLower = l := by
  induction l with
  | nil => rfl
  | cons c t ih =>
    simp only [List.map_cons]
    rw [ruLower_digit (hall c (by simp)), ih (fun x hx => hall x (by simp [hx]))]

theorem parseDecimalParts_digits {l : List Char} (hall : ∀ c ∈ l, isDig c = true)
    (hne : l ≠ []) : parseDecimalParts l = some (digitsVal l, 0, 0) := by
  unfold parseDecimalParts
  have h1 : l.all (fun c => isDig c || c = '.') = true :=
    List.all_eq_true.mpr fun c hc => by simp [hall c hc]
  rw [if_pos h1]
  have h2 : l.filter (fun c => decide (c = '.')) = [] := by
    rw [List.filter_eq_nil_iff]
    intro c hc
    have := hall c hc
    simp only [decide_eq_true_eq]
    intro hdot
    rw [hdot] at this
    cases this
  rw [h2]
  show (if l.isEmpty then none else some (digitsVal l, 0, 0)) = some (digitsVal l, 0, 0)
  rw [if_neg (by simpa [List.isEmpty_iff] using hne)]

theorem cleanRevenue_digits {l : List Char} (hall : ∀ c ∈ l, isDig c = true) :
    cleanRevenue l = l := by
  unfold cleanRevenue
  have hfilter : l.filter (fun c => isDig c || c = '.' || c = ',') = l := by
    rw [List.filter_eq_self]
    intro c hc
    simp [hall c hc]
  rw [hfilter]
  have : ∀ c ∈ l, (if c = ',' then '.' else c) = c := by
    intro c hc
    have := hall c hc
    rw [if_neg]
    intro hcom
    rw [hcom] at this
    cases this
  calc l.map (fun c => if c = ',' then '.' else c) = l.map id := List.map_congr_left this
    _ = l := List.map_id l

theorem revenueMultiplier_digits {l : List Char} (hall : ∀ c ∈ l, isDig c = true) :
    revenueMultiplier l = 1 := by
  simp only [revenueMultiplier]
  rw [map_ruLower_digits hall]
  have hm1 : containsSub ['м', 'л', 'н'] l = false :=
    containsSub_false_of_digits (x := 'м') (by decide) (by decide) hall
  have hm2 : containsSub ['m', 'i', 'l', 'l', 'i', 'o', 'n'] l = false :=
    containsSub_false_of_digits (x := 'm') (by decide) (by decide) hall
  have hm3 : containsSub ['м', 'л', 'р', 'д'] l = false :=
    containsSub_false_of_digits (x := 'м') (by decide) (by decide) hall
  have hm4 : containsSub ['b', 'i', 'l', 'l', 'i', 'o', 'n'] l = false :=
    containsSub_false_of_digits (x := 'b') (by decide) (by decide) hall
  have hm5 : containsSub ['т', 'ы', 'с'] l = false :=
    containsSub_false_of_digits (x := 'т') (by decide) (by decide) hall
  have hm6 : containsSub ['t', 'h', 'o', 'u', 's', 'a', 'n', 'd'] l = false :=
    containsSub_false_of_digits (x := 't') (by decide) (by decide) hall
  simp [hm1, hm2, hm3, hm4, hm5, hm6]

theorem parse_revenue_digits {l : List Char} (hall : ∀ c ∈ l, isDig c = true)
    (hne : l ≠ []) : parse_revenue l = some ((digitsVal l : Nat) : ℤ) := by
  unfold parse_revenue
  rw [if_neg (by simpa [List.isEmpty_iff] using hne), cleanRevenue_digits hall,
    if_neg (by simpa [List.isEmpty_iff] using hne), parseDecimalParts_digits hall hne]
  show some ((truncMul (digitsVal l) 0 0 (revenueMultiplier l) : Nat) : ℤ) = _
  rw [revenueMultiplier_digits hall]
  simp [truncMul]

theorem parse_revenue_nonneg {t : List Char} {n : Int} (h : parse_revenue t = some n) :
    0 ≤ n := by
  unfold parse_revenue at h
  split at h
  · cases h
  · split at h
    · cases h
    · split at h
      · rename_i ip fp k _
        rw [← Option.some.inj h]
        exact Int.natCast_nonneg _
      · cases h

theorem intRepr_of_nonneg {n : Int} (h : 0 ≤ n) : intRepr n = natRepr n.toNat := by
  unfold intRepr
  rw [if_neg (by omega)]

theorem parse_revenue_natRepr (m : Nat) : parse_revenue (natRepr m) = some (m : ℤ) := by
  rw [parse_revenue_digits (natRepr_all_digits m) (natRepr_ne_nil m), digitsVal_natRepr]

/-! ## Claim C3 -/

/-- C3: revenue parsing is unit-aware — `"100 млн ₽"` parses to
100,000,000, `"10.5 млрд"` to 10,500,000,000, `"1 234 567 ₽"` to
1,234,567, and `"N/A"` to `none` — and parsing the canonical decimal
representation (`intRepr`, Python `str`) of any of its own outputs
returns that output unchanged. -/
theorem claim_C3 :
    parse_revenue "100 млн ₽".toList = some 100000000 ∧
    parse_revenue "10.5 млрд".toList = some 10500000000 ∧
    parse_revenue "1 234 567 ₽".toList = some 1234567 ∧
    parse_revenue "N/A".toList = none ∧
    ∀ (t : List Char) (n : Int), parse_revenue t = some n →
      parse_revenue (intRepr n) = some n := by
  refine ⟨by decide, by decide, by decide, by decide, ?_⟩
  intro t n h
  have hnn : 0 ≤ n := parse_revenue_nonneg h
  rw [intRepr_of_nonneg hnn, parse_revenue_natRepr, Int.toNat_of_nonneg hnn]

/-- C3, witness: the idempotence clause applied to the concrete parse
of `"100 млн ₽"`. -/
theorem claim_C3_witness :
    parse_revenue (intRepr 100000000) = some 100000000 :=
  claim_C3.2.2.2.2 "100 млн ₽".toList 100000000 (by decide)

/-! ## Claim C4 -/

/-- C4, counterexample: `"wordfast pro"` is a keyword of the scorer's
combined list and names the recognized product `"Wordfast"` of the
configured `cat_products` (its lowercased text contains the product
name, the same test `extract_cat_products` uses to recognize products),
yet `get_keyword_confidence` assigns it 0.5, not the 0.9 the claim
requires for recognized product names. -/
theorem claim_C4_counterexample :
    "wordfast pro".toList ∈ cat_keywords ∧
    "Wordfast".toList ∈ cat_products ∧
    containsSub ("Wordfast".toList.map ruLower) ("wordfast pro".toList.map ruLower) = true ∧
    get_keyword_confidence "wordfast pro".toList = 1 / 2 := by
  refine ⟨by decide, by decide, by decide, ?_⟩
  have hp : product_keywords.any
      (fun p => containsSub p ("wordfast pro".toList.map ruLower)) = false := by decide
  have hg : general_terms.any
      (fun g => containsSub g ("wordfast pro".toList.map ruLower)) = false := by decide
  simp only [get_keyword_confidence, hp, hg, Bool.false_eq_true, if_false]

/-- C4, amended: `get_keyword_confidence` assigns 0.9 exactly when the
lowercased keyword contains one of the five product substrings
`trados`, `memoq`, `smartcat`, `memsource`, `phrase`; otherwise 0.7
exactly when it contains `translation memory`, `tm`, `tms` or
`локализация`; and 0.5 otherwise.  Recognized product names outside the
five substrings (e.g. `wordfast pro`, `xtm cloud`, `transit nxt`)
therefore do not receive 0.9. -/
theorem claim_C4_amended :
    ∀ kw : List Char,
      get_keyword_confidence kw =
        if ∃ p ∈ product_keywords, containsSub p (kw.map ruLower) = true then 9 / 10
        else if ∃ g ∈ general_terms, containsSub g (kw.map ruLower) = true then 7 / 10
        else 1 / 2 := by
  intro kw
  simp only [get_keyword_confidence]
  by_cases hp : product_keywords.any (fun p => containsSub p (kw.map ruLower)) = true
  · rw [if_pos hp, if_pos (List.any_eq_true.mp hp)]
  · rw [if_neg hp, if_neg (fun hex => hp (List.any_eq_true.mpr hex))]
    by_cases hg : general_terms.any (fun g => containsSub g (kw.map ruLower)) = true
    · rw [if_pos hg, if_pos (List.any_eq_true.mp hg)]
    · rw [if_neg hg, if_neg (fun hex => hg (List.any_eq_true.mpr hex))]

/-! ## Claims C5 and C10: deduplication -/

theorem firstWins_nil : firstWins [] = [] := by
  simp [firstWins]

theorem firstWins_cons (c : Dict) (rest : List Dict) :
    firstWins (c :: rest) =
      if valTruthy (innOf c) = true then
        c :: firstWins (rest.filter (fun d => decide (innOf d ≠ innOf c)))
      else firstWins rest := by
  rw [firstWins]

theorem dedupGo_eq_firstWins (l : List Dict) (seen : List Val) :
    dedupGo l seen = firstWins (l.filter (fun c => decide (innOf c ∉ seen))) := by
  induction l generalizing seen with
  | nil => rw [List.filter_nil, firstWins_nil]; rfl
  | cons c rest ih =>
    by_cases ht : valTruthy (innOf c) = true
    · by_cases hs : innOf c ∈ seen
      · have h1 : dedupGo (c :: rest) seen = dedupGo rest seen := by
          rw [dedupGo, if_neg]
          rintro ⟨_, habs⟩
          exact habs hs
        have h2 : (c :: rest).filter (fun d => decide (innOf d ∉ seen)) =
            rest.filter (fun d => decide (innOf d ∉ seen)) := by
          rw [List.filter_cons, if_neg (by simpa using hs)]
        rw [h1, h2, ih]
      · have h1 : dedupGo (c :: rest) seen = c :: dedupGo rest (innOf c :: seen) := by
          rw [dedupGo, if_pos ⟨ht, hs⟩]
        have h2 : (c :: rest).filter (fun d => decide (innOf d ∉ seen)) =
            c :: rest.filter (fun d => decide (innOf d ∉ seen)) := by
          rw [List.filter_cons, if_pos (by simpa using hs)]
        rw [h1, h2, firstWins_cons, if_pos ht, List.filter_filter]
        have h3 : ∀ r : List Dict,
            r.filter (fun d => decide (innOf d ≠ innOf c) && decide (innOf d ∉ seen)) =
            r.filter (fun d => decide (innOf d ∉ innOf c :: seen)) := by
          intro r
          apply List.filter_congr
          intro d _
          by_cases h1 : innOf d = innOf c
          · simp [h1]
          · by_cases h2 : innOf d ∈ seen
            · simp [h1, h2]
            · simp [h1, h2]
        rw [h3, ih]
    · have h1 : dedupGo (c :: rest) seen = dedupGo rest seen := by
        rw [dedupGo, if_neg]
        rintro ⟨habs, _⟩
        exact ht habs
      by_cases hs : innOf c ∈ seen
      · have h2 : (c :: rest).filter (fun d => decide (innOf d ∉ seen)) =
            rest.filter (fun d => decide (innOf d ∉ seen)) := by
          rw [List.filter_cons, if_neg (by simpa using hs)]
        rw [h1, h2, ih]
      · have h2 : (c :: rest).filter (fun d => decide (innOf d ∉ seen)) =
            c :: rest.filter (fun d => decide (innOf d ∉ seen)) := by
          rw [List.filter_cons, if_pos (by simpa using hs)]
        rw [h1, h2, firstWins_cons, if_neg ht, ih]

theorem deduplicate_eq_firstWins (l : List Dict) :
    deduplicate_companies l = firstWins l := by
  rw [deduplicate_companies, dedupGo_eq_firstWins]
  congr 1
  apply List.filter_eq_self.mpr
  intro c _
  simp

theorem dedupGo_truthy {l : List Dict} {seen : List Val} :
    ∀ c ∈ dedupGo l seen, valTruthy (innOf c) = true := by
  induction l generalizing seen with
  | nil => intro c hc; cases hc
  | cons a rest ih =>
    intro c hc
    rw [dedupGo] at hc
    split_ifs at hc with h
    · rcases List.mem_cons.mp hc with rfl | hc'
      · exact h.1
      · exact ih c hc'
    · exact ih c hc

/-- C5: deduplication by tax ID is stable and first-seen-wins.  On the
spec's example (records with tax IDs 1, 2, 1 in that order) the later
duplicate is dropped; and in general `deduplicate_companies` equals the
declarative `firstWins` function, which keeps, in input order, exactly
the first record of each present tax ID and drops every later record
with the same tax ID. -/
theorem claim_C5 :
    deduplicate_companies
        [[("inn".toList, Val.vstr "1".toList), ("name".toList, Val.vstr "A".toList)],
         [("inn".toList, Val.vstr "2".toList), ("name".toList, Val.vstr "B".toList)],
         [("inn".toList, Val.vstr "1".toList), ("name".toList, Val.vstr "C".toList)]] =
        [[("inn".toList, Val.vstr "1".toList), ("name".toList, Val.vstr "A".toList)],
         [("inn".toList, Val.vstr "2".toList), ("name".toList, Val.vstr "B".toList)]] ∧
    ∀ l : List Dict, deduplicate_companies l = firstWins l :=
  ⟨by decide, deduplicate_eq_firstWins⟩

/-- C10: `deduplicate_companies` silently drops every record whose tax
ID is missing or falsy (in particular the empty string), not only later
duplicates: no output record has a falsy tax ID, and a unique record
with an empty tax ID is dropped. -/
theorem claim_C10 :
    (∀ l : List Dict, ∀ c ∈ deduplicate_companies l, valTruthy (innOf c) = true) ∧
    deduplicate_companies
        [[("inn".toList, Val.vstr []), ("name".toList, Val.vstr "Unique".toList)]] = [] :=
  ⟨fun _ => dedupGo_truthy, by decide⟩

/-- C10, witness: the no-falsy-tax-ID clause applied to a concrete
one-record list whose output record it certifies. -/
theorem claim_C10_witness :
    valTruthy (innOf [("inn".toList, Val.vstr "1".toList)]) = true :=
  claim_C10.1 [[("inn".toList, Val.vstr "1".toList)]]
    [("inn".toList, Val.vstr "1".toList)] (by decide)

/-! ## Dictionary lemmas -/

theorem dictGet_map_update_self {d : Dict} {k : List Char} (v : Val)
    (h : dictGet d k ≠ none) :
    dictGet (d.map (fun kv => if kv.1 = k then (k, v) else kv)) k = some v := by
  induction d with
  | nil => simp [dictGet] at h
  | cons a rest ih =>
    cases a with
    | mk ak av =>
      by_cases hk : ak = k
      · have hhead : (if (ak, av).1 = k then ((k, v) : List Char × Val) else (ak, av))
            = (k, v) := by simp [hk]
        rw [List.map_cons, hhead, dictGet, if_pos rfl]
      · have hhead : (if (ak, av).1 = k then ((k, v) : List Char × Val) else (ak, av))
            = (ak, av) := by simp [hk]
        rw [List.map_cons, hhead, dictGet, if_neg hk]
        rw [dictGet, if_neg hk] at h
        exact ih h

theorem dictGet_map_update_ne {d : Dict} {k k' : List Char} (hne : k' ≠ k) (v : Val) :
    dictGet (d.map (fun kv => if kv.1 = k then (k, v) else kv)) k' = dictGet d k' := by
  induction d with
  | nil => rfl
  | cons a rest ih =>
    cases a with
    | mk ak av =>
      by_cases hk : ak = k
      · have hhead : (if (ak, av).1 = k then ((k, v) : List Char × Val) else (ak, av))
            = (k, v) := by simp [hk]
        rw [List.map_cons, hhead, dictGet, if_neg (Ne.symm hne), dictGet,
          if_neg (fun hc : ak = k' => hne (hc ▸ hk))]
        exact ih
      · have hhead : (if (ak, av).1 = k then ((k, v) : List Char × Val) else (ak, av))
            = (ak, av) := by simp [hk]
        rw [List.map_cons, hhead, dictGet, dictGet]
        split_ifs with h
        · rfl
        · exact ih

theorem dictGet_append_right {d : Dict} {k : List Char} (kv : List Char × Val)
    (h : dictGet d k = none) : dictGet (d ++ [kv]) k = dictGet [kv] k := by
  induction d with
  | nil => rfl
  | cons a rest ih =>
    cases a with
    | mk ak av =>
      have hk : ¬ ak = k := by
        intro hk
        rw [dictGet, if_pos hk] at h
        cases h
      rw [dictGet, if_neg hk] at h
      rw [List.cons_append, dictGet, if_neg hk]
      exact ih h

theorem dictGet_append_ne {d : Dict} {k k' : List Char} (hne : k' ≠ k) (v : Val) :
    dictGet (d ++ [(k, v)]) k' = dictGet d k' := by
  induction d with
  | nil =>
    show (if k = k' then some v else dictGet [] k') = dictGet [] k'
    rw [if_neg (fun hc : k = k' => hne hc.symm)]
  | cons a rest ih =>
    cases a with
    | mk ak av =>
      rw [List.cons_append, dictGet, dictGet]
      split_ifs
      · rfl
      · exact ih

theorem dictGet_dictSet_self (d : Dict) (k : List Char) (v : Val) :
    dictGet (dictSet d k v) k = some v := by
  unfold dictSet
  cases h : dictGet d k with
  | none =>
    rw [dictGet_append_right _ h, dictGet, if_pos rfl]
  | some w =>
    exact dictGet_map_update_self v (by rw [h]; exact fun hc => Option.noConfusion hc)

theorem dictGet_dictSet_ne (d : Dict) {k k' : List Char} (hne : k' ≠ k) (v : Val) :
    dictGet (dictSet d k v) k' = dictGet d k' := by
  unfold dictSet
  cases h : dictGet d k with
  | none => exact dictGet_append_ne hne v
  | some w => exact dictGet_map_update_ne hne v

theorem dictGet_dictSets_notin {kvs : List (List Char × Val)} {d : Dict} {k : List Char}
    (h : k ∉ kvs.map Prod.fst) :
    dictGet (dictSets d kvs) k = dictGet d k := by
  induction kvs generalizing d with
  | nil => rfl
  | cons a rest ih =>
    simp only [List.map_cons, List.mem_cons, not_or] at h
    rw [dictSets, ih h.2, dictGet_dictSet_ne _ h.1]

theorem dictGet_dictSets_cases {kvs : List (List Char × Val)} {d : Dict} {k : List Char}
    (h : dictGet (dictSets d kvs) k ≠ none) :
    dictGet d k ≠ none ∨ k ∈ kvs.map Prod.fst := by
  induction kvs generalizing d with
  | nil => exact Or.inl h
  | cons a rest ih =>
    rw [dictSets] at h
    rcases ih h with h' | h'
    · by_cases hk : k = a.1
      · exact Or.inr (by rw [List.map_cons]; exact hk ▸ List.mem_cons_self _ _)
      · rw [dictGet_dictSet_ne _ hk] at h'
        exact Or.inl h'
    · exact Or.inr (by rw [List.map_cons]; exact List.mem_cons_of_mem _ h')

/-! ## Claim C6 -/

theorem parse_company_data_cases (minRevenue : Int) (now : List Char) (raw : Dict) :
    parse_company_data minRevenue now raw = [] ∨
    ∃ name revenue okved,
      minRevenue ≤ revenue ∧
      parse_company_data minRevenue now raw =
        [("inn".toList, .vstr (rawInnStr raw)),
         ("name".toList, .vstr name),
         ("revenue".toList, .vint revenue),
         ("site".toList, parsedSite raw),
         ("okved_main".toList, .vstr okved),
         ("employees".toList, parsedEmployees raw),
         ("source".toList, (dictGet raw "source".toList).getD (.vstr "unknown".toList)),
         ("detail_url".toList, (dictGet raw "detail_url".toList).getD (.vstr [])),
         ("parsed_at".toList, .vstr now)] := by
  unfold parse_company_data
  split_ifs with h1
  · exact Or.inl rfl
  · split
    · exact Or.inl rfl
    · rename_i name heqname
      split_ifs with h2
      · exact Or.inl rfl
      · split
        · exact Or.inl rfl
        · rename_i revenue heqrev
          split_ifs with h3
          · exact Or.inl rfl
          · split
            · exact Or.inl rfl
            · rename_i okved heqok
              exact Or.inr ⟨name, revenue, okved, by omega, rfl⟩

/-- C6: the revenue threshold is an inclusive boundary at both stages.
At the parse stage every record that survives `parse_company_data`
carries a revenue at least the configured minimum; a concrete record
with revenue exactly the default minimum (100,000,000) survives while
one unit below is rejected.  At the dedicated filter stage
(`filter_companies`) a record with revenue equal to the minimum is kept
and one with revenue one unit below is dropped. -/
theorem claim_C6 :
    (∀ (minRevenue : Int) (now : List Char) (raw : Dict),
      parse_company_data minRevenue now raw ≠ [] →
      ∃ rv : Int, dictGet (parse_company_data minRevenue now raw) "revenue".toList
          = some (.vint rv) ∧ minRevenue ≤ rv) ∧
    parse_company_data 100000000 []
        [("inn".toList, .vstr "7702070139".toList), ("name".toList, .vstr "Eq".toList),
         ("revenue".toList, .vint 100000000)] ≠ [] ∧
    parse_company_data 100000000 []
        [("inn".toList, .vstr "7702070139".toList), ("name".toList, .vstr "Low".toList),
         ("revenue".toList, .vint 99999999)] = [] ∧
    (∀ (minRevenue : Int) (c : Dict), dictGet c "revenue".toList = some (.vint minRevenue) →
      filter_companies minRevenue [c] = [c]) ∧
    (∀ (minRevenue : Int) (c : Dict),
      dictGet c "revenue".toList = some (.vint (minRevenue - 1)) →
      filter_companies minRevenue [c] = []) := by
  refine ⟨?_, by decide, by decide, ?_, ?_⟩
  · intro minRevenue now raw hne
    rcases parse_company_data_cases minRevenue now raw with h | ⟨name, revenue, okved, hge, h⟩
    · exact absurd h hne
    · refine ⟨revenue, ?_, hge⟩
      rw [h]
      rfl
  · intro minRevenue c h
    unfold filter_companies
    rw [List.filter_cons, if_pos, List.filter_nil]
    simp only [getRevenueInt, h, decide_eq_true_eq]
    omega
  · intro minRevenue c h
    unfold filter_companies
    rw [List.filter_cons, if_neg, List.filter_nil]
    simp only [getRevenueInt, h, decide_eq_true_eq]
    omega

/-- C6, witness: the general clauses applied to concrete records — the
parse-stage bound at the default minimum, and the filter stage keeping
a boundary record and dropping a one-below record. -/
theorem claim_C6_witness :
    (∃ rv : Int, dictGet (parse_company_data 100000000 []
        [("inn".toList, .vstr "7702070139".toList), ("name".toList, .vstr "Eq".toList),
         ("revenue".toList, .vint 100000000)]) "revenue".toList
        = some (.vint rv) ∧ (100000000 : Int) ≤ rv) ∧
    filter_companies 100000000 [[("revenue".toList, Val.vint 100000000)]] =
      [[("revenue".toList, Val.vint 100000000)]] ∧
    filter_companies 100000000 [[("revenue".toList, Val.vint 99999999)]] = [] :=
  ⟨claim_C6.1 100000000 [] _ (by decide),
   claim_C6.2.2.2.1 100000000 [("revenue".toList, Val.vint 100000000)] (by decide),
   claim_C6.2.2.2.2 100000000 [("revenue".toList, Val.vint 99999999)] (by decide)⟩

/-! ## Claim C7 -/

theorem enrichSite_get_ne {c c2 : Dict} {k : List Char} (h : k ≠ "site".toList) :
    dictGet (enrichSite c c2) k = dictGet c2 k := by
  unfold enrichSite
  split
  · split_ifs
    · rfl
    · exact dictGet_dictSet_ne _ h _
  · rfl

theorem enrichSize_absent {c : Dict} (h : dictGet c "employees".toList = none) :
    enrichSize c = c := by
  unfold enrichSize
  rw [h]

theorem enrich_keeps_size_absent {c : Dict} (h : dictGet c "employees".toList = none) :
    dictGet (enrich_one c) "size_category".toList = dictGet c "size_category".toList := by
  unfold enrich_one
  split_ifs with hexc
  · rfl
  · rw [enrichSite_get_ne (by decide), dictGet_dictSet_ne _ (by decide), enrichSize_absent h]

theorem enrich_assigns_revcat {c : Dict} (hexc : enrichExc c = false) :
    dictGet (enrich_one c) "revenue_category".toList
      = some (.vstr (revBucket (getRevenueInt c))) := by
  unfold enrich_one
  rw [if_neg (by rw [hexc]; exact Bool.false_ne_true)]
  rw [enrichSite_get_ne (by decide), dictGet_dictSet_self]

/-- C7: bucket assignment has fixed inclusive breakpoints.
Size (only when an employee count is present and truthy): 15 → micro,
16 and 100 → small, 101 and 250 → medium, 251 → large, no assignment
when the employee count is absent.  Revenue: 499,999,999 → small,
500,000,000 and 999,999,999 → medium, 1,000,000,000 → large, assigned
to every record on the non-exception path (`enrichExc c = false`, i.e.
the fields carry the types the pipeline produces). -/
theorem claim_C7 :
    dictGet (enrich_one [("employees".toList, Val.vint 15), ("revenue".toList, Val.vint 0)])
      "size_category".toList = some (.vstr "micro".toList) ∧
    dictGet (enrich_one [("employees".toList, Val.vint 16), ("revenue".toList, Val.vint 0)])
      "size_category".toList = some (.vstr "small".toList) ∧
    dictGet (enrich_one [("employees".toList, Val.vint 100), ("revenue".toList, Val.vint 0)])
      "size_category".toList = some (.vstr "small".toList) ∧
    dictGet (enrich_one [("employees".toList, Val.vint 101), ("revenue".toList, Val.vint 0)])
      "size_category".toList = some (.vstr "medium".toList) ∧
    dictGet (enrich_one [("employees".toList, Val.vint 250), ("revenue".toList, Val.vint 0)])
      "size_category".toList = some (.vstr "medium".toList) ∧
    dictGet (enrich_one [("employees".toList, Val.vint 251), ("revenue".toList, Val.vint 0)])
      "size_category".toList = some (.vstr "large".toList) ∧
    dictGet (enrich_one [("revenue".toList, Val.vint 0)]) "size_category".toList = none ∧
    (∀ c : Dict, dictGet c "employees".toList = none →
      dictGet (enrich_one c) "size_category".toList = dictGet c "size_category".toList) ∧
    dictGet (enrich_one [("revenue".toList, Val.vint 499999999)])
      "revenue_category".toList = some (.vstr "small".toList) ∧
    dictGet (enrich_one [("revenue".toList, Val.vint 500000000)])
      "revenue_category".toList = some (.vstr "medium".toList) ∧
    dictGet (enrich_one [("revenue".toList, Val.vint 999999999)])
      "revenue_category".toList = some (.vstr "medium".toList) ∧
    dictGet (enrich_one [("revenue".toList, Val.vint 1000000000)])
      "revenue_category".toList = some (.vstr "large".toList) ∧
    (∀ c : Dict, enrichExc c = false →
      dictGet (enrich_one c) "revenue_category".toList
        = some (.vstr (revBucket (getRevenueInt c)))) :=
  ⟨by decide, by decide, by decide, by decide, by decide, by decide, by decide,
   fun _ => enrich_keeps_size_absent,
   by decide, by decide, by decide, by decide,
   fun _ => enrich_assigns_revcat⟩

/-- C7, witness: the two general clauses applied to concrete records —
a record without an employee count keeps its absent size category, and
a well-typed record gets its revenue bucket. -/
theorem claim_C7_witness :
    dictGet (enrich_one [("revenue".toList, Val.vint 7)]) "size_category".toList
      = dictGet [("revenue".toList, Val.vint 7)] "size_category".toList ∧
    dictGet (enrich_one [("revenue".toList, Val.vint 7)]) "revenue_category".toList
      = some (.vstr (revBucket (getRevenueInt [("revenue".toList, Val.vint 7)]))) :=
  ⟨claim_C7.2.2.2.2.2.2.2.1 [("revenue".toList, Val.vint 7)] (by decide),
   claim_C7.2.2.2.2.2.2.2.2.2.2.2.2 [("revenue".toList, Val.vint 7)] (by decide)⟩

/-! ## Claim C8 -/

theorem analyze_multiple_length (f : Dict → Except (List Char) Dict) (cs : List Dict) :
    (analyze_multiple_companies f cs).length = cs.length := by
  induction cs with
  | nil => rfl
  | cons c rest ih => rw [analyze_multiple_companies, List.length_cons, ih, List.length_cons]

theorem analyze_multiple_decomp (f : Dict → Except (List Char) Dict)
    (pre : List Dict) (c : Dict) (post : List Dict) (m : List Char)
    (hf : f c = .error m) :
    analyze_multiple_companies f (pre ++ c :: post) =
      analyze_multiple_companies f pre
        ++ analysisErrorRecord c m :: analyze_multiple_companies f post := by
  induction pre with
  | nil =>
    simp only [List.nil_append, analyze_multiple_companies, hf]
  | cons a rest ih =>
    rw [List.cons_append, analyze_multiple_companies, ih, analyze_multiple_companies,
      List.cons_append]

theorem analysisErrorRecord_fields (c : Dict) (m : List Char) :
    dictGet (analysisErrorRecord c m) "cat_evidence".toList
        = some (.vstr ("Ошибка анализа: ".toList ++ m)) ∧
    dictGet (analysisErrorRecord c m) "cat_product".toList = some (.vstr []) ∧
    dictGet (analysisErrorRecord c m) "cat_score".toList = some (.vint 0) := by
  unfold analysisErrorRecord
  refine ⟨?_, ?_, ?_⟩
  · rw [dictSets, dictSets, dictSets, dictSets, dictGet_dictSet_ne _ (by decide),
      dictGet_dictSet_ne _ (by decide), dictGet_dictSet_self]
  · rw [dictSets, dictSets, dictSets, dictSets, dictGet_dictSet_ne _ (by decide),
      dictGet_dictSet_self]
  · rw [dictSets, dictSets, dictSets, dictSets, dictGet_dictSet_self]

/-- C8: a failing per-company analysis never aborts the batch.  For
every per-company analysis outcome `f` (`Except.error` being an
unexpected exception with its message), `analyze_multiple_companies`
returns exactly one record per input record; a company whose analysis
raises is replaced by its error record — the original record with
`cat_evidence` set to the analysis-error marker, an empty
`cat_product`, and `cat_score` 0 — while the records before and after
it are still processed normally.  The same catch exists inside
`analyze_company_website`: an exception in its `try` block on a record
with a valid website yields that error record directly. -/
theorem claim_C8 :
    (∀ (f : Dict → Except (List Char) Dict) (cs : List Dict),
      (analyze_multiple_companies f cs).length = cs.length) ∧
    (∀ (f : Dict → Except (List Char) Dict) (pre : List Dict) (c : Dict) (post : List Dict)
      (m : List Char), f c = .error m →
      analyze_multiple_companies f (pre ++ c :: post) =
        analyze_multiple_companies f pre
          ++ analysisErrorRecord c m :: analyze_multiple_companies f post) ∧
    (∀ (c : Dict) (m : List Char),
      dictGet (analysisErrorRecord c m) "cat_evidence".toList
          = some (.vstr ("Ошибка анализа: ".toList ++ m)) ∧
      dictGet (analysisErrorRecord c m) "cat_score".toList = some (.vint 0)) ∧
    (∀ (env : AnalysisEnv) (c : Dict) (m : List Char), env.raiseExc = some m →
      ¬(getSite c).isEmpty = true → env.valid_url (getSite c) = true →
      analyze_company_website env c = analysisErrorRecord c m) :=
  ⟨analyze_multiple_length,
   analyze_multiple_decomp,
   fun c m => ⟨(analysisErrorRecord_fields c m).1, (analysisErrorRecord_fields c m).2.2⟩,
   by
    intro env c m hraise hsite hvalid
    unfold analyze_company_website
    rw [if_neg (by simp [hsite, hvalid]), hraise]⟩

/-- C8, witness: a two-record batch whose second record's analysis
raises — the batch completes with both records present and the failing
one carrying the error marker and zero score. -/
theorem claim_C8_witness :
    analyze_multiple_companies
        (fun c => if c = [("inn".toList, Val.vstr "2".toList)] then .error "boom".toList
          else .ok c)
        ([[("inn".toList, Val.vstr "1".toList)]] ++
          [("inn".toList, Val.vstr "2".toList)] :: []) =
      analyze_multiple_companies
        (fun c => if c = [("inn".toList, Val.vstr "2".toList)] then .error "boom".toList
          else .ok c)
        [[("inn".toList, Val.vstr "1".toList)]]
        ++ analysisErrorRecord [("inn".toList, Val.vstr "2".toList)] "boom".toList
          :: analyze_multiple_companies
            (fun c => if c = [("inn".toList, Val.vstr "2".toList)] then .error "boom".toList
              else .ok c) [] :=
  claim_C8.2.1
    (fun c => if c = [("inn".toList, Val.vstr "2".toList)] then .error "boom".toList
      else .ok c)
    [[("inn".toList, Val.vstr "1".toList)]]
    [("inn".toList, Val.vstr "2".toList)] [] "boom".toList (by rfl)

/-! ## Claim C9 -/

theorem evKeys3 :
    ∀ k ∈ (["cat_evidence".toList, "cat_product".toList, "cat_score".toList] :
      List (List Char)), k ∈ evidenceKeys := by decide

theorem analyze_is_dictSets (env : AnalysisEnv) (c : Dict) :
    ∃ kvs, analyze_company_website env c = dictSets c kvs ∧
      ∀ k ∈ kvs.map Prod.fst, k ∈ evidenceKeys := by
  unfold analyze_company_website
  split_ifs with h1
  · refine ⟨_, rfl, fun k hk => ?_⟩
    simp only [List.map_cons, List.map_nil] at hk
    exact evKeys3 k hk
  · split
    · refine ⟨_, rfl, fun k hk => ?_⟩
      simp only [analysisErrorRecord, List.map_cons, List.map_nil] at hk
      exact evKeys3 k hk
    · split
      · refine ⟨_, rfl, fun k hk => ?_⟩
        simp only [List.map_cons, List.map_nil] at hk
        exact evKeys3 k hk
      · split_ifs with hev
        · refine ⟨_, rfl, fun k hk => ?_⟩
          simp only [List.map_cons, List.map_nil] at hk
          exact evKeys3 k hk
        · refine ⟨_, rfl, fun k hk => ?_⟩
          simp only [List.map_cons, List.map_nil] at hk
          exact hk

/-- C9: the evidence scorer only adds the evidence fields.  For every
analysis environment and every record whose keys are disjoint from the
evidence keys (`cat_evidence`, `cat_product`, `cat_score`,
`cat_keywords_found`), every original field survives
`analyze_company_website` with its value unchanged, and every key of
the output is an original key or an evidence key — in every branch
(no site, exception, fetch failure, no evidence, evidence found). -/
theorem claim_C9 :
    ∀ (env : AnalysisEnv) (c : Dict),
      (∀ k ∈ evidenceKeys, dictGet c k = none) →
      (∀ k, dictGet c k ≠ none →
        dictGet (analyze_company_website env c) k = dictGet c k) ∧
      (∀ k, dictGet (analyze_company_website env c) k ≠ none →
        dictGet c k ≠ none ∨ k ∈ evidenceKeys) := by
  intro env c hdisj
  obtain ⟨kvs, heq, hsub⟩ := analyze_is_dictSets env c
  constructor
  · intro k hk
    rw [heq]
    apply dictGet_dictSets_notin
    intro hmem
    exact hk (hdisj k (hsub k hmem))
  · intro k hk
    rw [heq] at hk
    rcases dictGet_dictSets_cases hk with h | h
    · exact Or.inl h
    · exact Or.inr (hsub k h)

/-- C9, witness: a concrete record (one `inn` field, no website) keeps
its `inn` value through the scorer. -/
theorem claim_C9_witness :
    dictGet (analyze_company_website
        ⟨fun _ => false, none, none, [], []⟩
        [("inn".toList, Val.vstr "1".toList)]) "inn".toList
      = dictGet [("inn".toList, Val.vstr "1".toList)] "inn".toList :=
  (claim_C9 ⟨fun _ => false, none, none, [], []⟩
      [("inn".toList, Val.vstr "1".toList)] (by decide)).1
    "inn".toList (by decide)

end LeadSniper
